import Mathlib

/-!
Shallow embedding of the "Game Art Metadata Assistant" application
(an image batch-annotation tool: AI-suggested metadata per image,
per-item status state machine, bulk tagging, and a zip/EXIF export
pipeline), together with proofs checking the natural-language
specification against the code.

The embedding follows the TypeScript source:
* `types.ts` — `AppStatus`, `ImageMetadata`, `ImageFile`;
* the Gemini service module — response validation and filename cleanup
  in `analyzeImageAndSuggestMetadata`;
* the `App` component — `toUcs2Bytes`, `handleGenerateMetadataForOne`,
  `handleGenerateAllMetadata`, `handleApplyCustomTags`,
  `processAndDownloadAll`, and the state-updating UI handlers.
-/

namespace GameArt

/-- Embedding of `AppStatus` from `types.ts`. -/
inductive AppStatus where
  | IDLE
  | LOADING
  | SUCCESS
  | ERROR
deriving DecidableEq, Repr

/-- Embedding of `ImageMetadata` from `types.ts`. -/
structure ImageMetadata where
  filename : String
  title : String
  description : String
  tags : List String
deriving DecidableEq, Repr

/-- Embedding of `ImageFile` from `types.ts`.  The browser `File` object is
abstracted to an opaque string of bytes (`file`), and the object URL to a
string (`previewUrl`); neither is inspected by any operation we verify. -/
structure ImageFile where
  id : String
  file : String
  previewUrl : String
  metadata : Option ImageMetadata
  status : AppStatus
  error : Option String
deriving DecidableEq, Repr

/-! ## Filename normalization

`analyzeImageAndSuggestMetadata` post-processes the model-returned filename:

  metadata.filename.toLowerCase()
    .replace(backtick-regex, empty)
    .replace(whitespace-run-regex, hyphen)
    .replace(not-lowercase-alnum-hyphen-regex, empty)
    .replace(hyphen-run-regex, hyphen)

We model strings at the character-list level.  JavaScript regex character
classes are modelled by Boolean character predicates over code points. -/

/-- Character class of the JavaScript whitespace escape used by the
whitespace-collapsing replace (space separators, tab, line terminators,
no-break space, BOM). -/
def isJsSpace (c : Char) : Bool :=
  (9 ≤ c.toNat && c.toNat ≤ 13) || c.toNat = 32 || c.toNat = 160 ||
  c.toNat = 0x1680 || (0x2000 ≤ c.toNat && c.toNat ≤ 0x200a) ||
  c.toNat = 0x2028 || c.toNat = 0x2029 || c.toNat = 0x202f ||
  c.toNat = 0x205f || c.toNat = 0x3000 || c.toNat = 0xfeff

/-- Character class `[a-z0-9-]` of the keep-filter in the filename cleanup. -/
def isAllowedChar (c : Char) : Bool :=
  (97 ≤ c.toNat && c.toNat ≤ 122) || (48 ≤ c.toNat && c.toNat ≤ 57) ||
  c.toNat = 45

/-- The backtick character stripped by the cleanup. -/
def backtickChar : Char := Char.ofNat 96

/-- Hyphen test, for the hyphen-run-collapsing replace. -/
def isHyphenChar (c : Char) : Bool := c = '-'

/-- Replace every maximal run of characters satisfying `p` by the single
character `r`; `inRun` records whether the previous character was inside a
run (so the replacement was already emitted).  `collapseRuns p r false`
models the JavaScript global replace of `p`-runs by `r`; with `p` the
hyphen test and `r` a hyphen it also models collapsing repeated hyphens. -/
def collapseRuns (p : Char → Bool) (r : Char) : Bool → List Char → List Char
  | _, [] => []
  | inRun, c :: cs =>
    if p c then
      if inRun then collapseRuns p r true cs
      else r :: collapseRuns p r true cs
    else c :: collapseRuns p r false cs

/-- Embedding of the filename cleanup chain in
`analyzeImageAndSuggestMetadata` (gemini service): lowercase, strip
backticks, collapse whitespace runs to single hyphens, drop characters
outside `[a-z0-9-]`, collapse hyphen runs.  Lowercasing is modelled at the
basic-latin level (`Char.toLower`), which agrees with the source wherever
the later `[a-z0-9-]` filter can be affected by an ASCII input. -/
def normalizeFilename (s : String) : String :=
  let lowered := s.data.map Char.toLower
  let noBackticks := lowered.filter (fun c => c ≠ backtickChar)
  let hyphenated := collapseRuns isJsSpace '-' false noBackticks
  let kept := hyphenated.filter isAllowedChar
  String.mk (collapseRuns isHyphenChar '-' false kept)

/-- Test that no two adjacent characters are both hyphens. -/
def noAdjacentHyphens : List Char → Bool
  | [] => true
  | [_] => true
  | a :: b :: cs => !(a = '-' && b = '-') && noAdjacentHyphens (b :: cs)

theorem collapseRuns_all {p : Char → Bool} {r : Char} {q : Char → Bool}
    (hr : q r = true) :
    ∀ (flag : Bool) (l : List Char), l.all q = true →
      (collapseRuns p r flag l).all q = true := by
  intro flag l
  induction l generalizing flag with
  | nil => intro _; simp [collapseRuns]
  | cons c cs ih =>
    intro h
    rw [List.all_cons, Bool.and_eq_true] at h
    by_cases hc : p c = true
    · cases flag with
      | true =>
        have he : collapseRuns p r true (c :: cs) = collapseRuns p r true cs := by
          simp [collapseRuns, hc]
        rw [he]; exact ih true h.2
      | false =>
        have he : collapseRuns p r false (c :: cs) =
            r :: collapseRuns p r true cs := by
          simp [collapseRuns, hc]
        rw [he, List.all_cons, Bool.and_eq_true]
        exact ⟨hr, ih true h.2⟩
    · have he : collapseRuns p r flag (c :: cs) =
          c :: collapseRuns p r false cs := by
        simp [collapseRuns, hc]
      rw [he, List.all_cons, Bool.and_eq_true]
      exact ⟨h.1, ih false h.2⟩

theorem noAdjacentHyphens_cons {c : Char} {l : List Char}
    (hhd : c = '-' → l.head? ≠ some '-')
    (hl : noAdjacentHyphens l = true) :
    noAdjacentHyphens (c :: l) = true := by
  cases l with
  | nil => simp [noAdjacentHyphens]
  | cons b t =>
    simp only [noAdjacentHyphens, Bool.and_eq_true, Bool.not_eq_true']
    refine ⟨?_, hl⟩
    by_cases hc : c = '-'
    · have hb : b ≠ '-' := by
        intro hb; exact (hhd hc) (by simp [hb])
      simp [hc, hb]
    · simp [hc]

theorem collapseHyphens_spec :
    ∀ l : List Char,
      noAdjacentHyphens (collapseRuns isHyphenChar '-' false l) = true ∧
      (collapseRuns isHyphenChar '-' true l).head? ≠ some '-' ∧
      noAdjacentHyphens (collapseRuns isHyphenChar '-' true l) = true := by
  intro l
  induction l with
  | nil => simp [collapseRuns, noAdjacentHyphens]
  | cons c cs ih =>
    obtain ⟨ih0, ihh, ih1⟩ := ih
    by_cases hc : isHyphenChar c = true
    · refine ⟨?_, ?_, ?_⟩
      · simp only [collapseRuns, hc, if_true]
        exact noAdjacentHyphens_cons (fun _ => ihh) ih1
      · simpa [collapseRuns, hc] using ihh
      · simpa [collapseRuns, hc] using ih1
    · have hcne : c ≠ '-' := by
        intro h; exact hc (by simp [isHyphenChar, h])
      refine ⟨?_, ?_, ?_⟩
      · simp only [collapseRuns, hc, if_neg, Bool.false_eq_true, not_false_iff]
        exact noAdjacentHyphens_cons (fun h => absurd h hcne) ih0
      · simp only [collapseRuns, hc, if_neg, Bool.false_eq_true, not_false_iff]
        simp [hcne]
      · simp only [collapseRuns, hc, if_neg, Bool.false_eq_true, not_false_iff]
        exact noAdjacentHyphens_cons (fun h => absurd h hcne) ih0

/-- C6: every output of the filename normalization chain consists only of
characters in `[a-z0-9-]` and contains no two adjacent hyphens.  The chain
itself (`normalizeFilename`) is, definitionally, the in-order composition
of lowercasing, backtick deletion, whitespace-run-to-hyphen replacement,
deletion of characters outside `[a-z0-9-]`, and hyphen-run collapsing, as
in the source. -/
theorem normalizeFilename_charset (s : String) :
    (normalizeFilename s).data.all isAllowedChar = true ∧
    noAdjacentHyphens (normalizeFilename s).data = true := by
  unfold normalizeFilename
  refine ⟨?_, ?_⟩
  · apply collapseRuns_all (by decide)
    exact List.all_eq_true.2 fun x hx => List.of_mem_filter hx
  · exact (collapseHyphens_spec _).1

theorem toLower_eq_self_of_allowed {c : Char} (h : isAllowedChar c = true) :
    c.toLower = c := by
  have hn : ¬(c.toNat ≥ 65 ∧ c.toNat ≤ 90) := by
    simp only [isAllowedChar, Bool.or_eq_true, Bool.and_eq_true,
      decide_eq_true_eq] at h
    omega
  simp [Char.toLower, hn]

theorem ne_backtick_of_allowed {c : Char} (h : isAllowedChar c = true) :
    c ≠ backtickChar := by
  intro he
  rw [he] at h
  exact absurd h (by decide)

theorem not_jsSpace_of_allowed {c : Char} (h : isAllowedChar c = true) :
    isJsSpace c = false := by
  rw [Bool.eq_false_iff]
  intro hs
  simp only [isAllowedChar, Bool.or_eq_true, Bool.and_eq_true,
    decide_eq_true_eq] at h
  simp only [isJsSpace, Bool.or_eq_true, Bool.and_eq_true,
    decide_eq_true_eq] at hs
  omega

theorem map_eq_self_of_fixed {f : Char → Char} :
    ∀ l : List Char, (∀ c ∈ l, f c = c) → l.map f = l := by
  intro l h
  induction l with
  | nil => rfl
  | cons c cs ih =>
    rw [List.map_cons, h c (by simp), ih fun x hx => h x (by simp [hx])]

theorem collapseRuns_eq_self_of_none {p : Char → Bool} {r : Char} :
    ∀ (flag : Bool) (l : List Char), (∀ c ∈ l, p c = false) →
      collapseRuns p r flag l = l := by
  intro flag l
  induction l generalizing flag with
  | nil => intro _; rfl
  | cons c cs ih =>
    intro h
    have hc : ¬ p c = true := by
      rw [h c (by simp)]; exact Bool.false_ne_true
    have he : collapseRuns p r flag (c :: cs) =
        c :: collapseRuns p r false cs := by
      simp [collapseRuns, hc]
    rw [he, ih false fun x hx => h x (by simp [hx])]

theorem noAdjacentHyphens_tail {c : Char} {cs : List Char}
    (h : noAdjacentHyphens (c :: cs) = true) :
    noAdjacentHyphens cs = true := by
  cases cs with
  | nil => rfl
  | cons b t =>
    simp only [noAdjacentHyphens, Bool.and_eq_true] at h
    exact h.2

theorem collapseHyphens_eq_self :
    ∀ (l : List Char) (flag : Bool), noAdjacentHyphens l = true →
      (flag = true → l.head? ≠ some '-') →
      collapseRuns isHyphenChar '-' flag l = l := by
  intro l
  induction l with
  | nil => intro flag _ _; rfl
  | cons c cs ih =>
    intro flag hadj hhd
    by_cases hc : c = '-'
    · have hflag : flag = false := by
        cases flag with
        | false => rfl
        | true => exact absurd (by simp [hc]) (hhd rfl)
      subst hflag
      have he : collapseRuns isHyphenChar '-' false (c :: cs) =
          '-' :: collapseRuns isHyphenChar '-' true cs := by
        simp [collapseRuns, isHyphenChar, hc]
      have hcshd : cs.head? ≠ some '-' := by
        cases cs with
        | nil => simp
        | cons b t =>
          simp only [noAdjacentHyphens, Bool.and_eq_true,
            Bool.not_eq_true'] at hadj
          have hb : b ≠ '-' := by
            intro hb
            rw [hc, hb] at hadj
            simp at hadj
          simp [hb]
      rw [he, ih true (noAdjacentHyphens_tail hadj) (fun _ => hcshd), hc]
    · have he : collapseRuns isHyphenChar '-' flag (c :: cs) =
          c :: collapseRuns isHyphenChar '-' false cs := by
        simp [collapseRuns, isHyphenChar, hc]
      rw [he, ih false (noAdjacentHyphens_tail hadj) (by simp)]

theorem normalizeFilename_fixed {l : List Char}
    (hall : l.all isAllowedChar = true)
    (hadj : noAdjacentHyphens l = true) :
    normalizeFilename (String.mk l) = String.mk l := by
  have hmem : ∀ c ∈ l, isAllowedChar c = true := List.all_eq_true.1 hall
  show String.mk (collapseRuns isHyphenChar '-' false
    ((collapseRuns isJsSpace '-' false
      ((((String.mk l).data.map Char.toLower).filter
        (fun c => c ≠ backtickChar)))).filter isAllowedChar)) = String.mk l
  have hdata : (String.mk l).data = l := rfl
  have hmap : l.map Char.toLower = l :=
    map_eq_self_of_fixed l fun c hc => toLower_eq_self_of_allowed (hmem c hc)
  have hbt : List.filter (fun c => decide (c ≠ backtickChar)) l = l :=
    List.filter_eq_self.2 fun c hc => by
      simpa using ne_backtick_of_allowed (hmem c hc)
  have hws : collapseRuns isJsSpace '-' false l = l :=
    collapseRuns_eq_self_of_none false l fun c hc =>
      not_jsSpace_of_allowed (hmem c hc)
  have hkeep : List.filter isAllowedChar l = l := List.filter_eq_self.2 hmem
  have hcol : collapseRuns isHyphenChar '-' false l = l :=
    collapseHyphens_eq_self l false hadj (by simp)
  rw [hdata, hmap, hbt, hws, hkeep, hcol]

/-- C7: filename normalization is idempotent — normalizing
`normalizeFilename s` returns it unchanged for every string `s` — and, in
particular, it is the identity on every string already in normalized form
(only characters of `[a-z0-9-]`, no adjacent hyphens). -/
theorem normalizeFilename_idempotent :
    (∀ s : String, normalizeFilename (normalizeFilename s) = normalizeFilename s) ∧
    (∀ l : List Char, l.all isAllowedChar = true → noAdjacentHyphens l = true →
      normalizeFilename (String.mk l) = String.mk l) := by
  constructor
  · intro s
    obtain ⟨h1, h2⟩ := normalizeFilename_charset s
    have hmk : String.mk (normalizeFilename s).data = normalizeFilename s := by
      cases normalizeFilename s; rfl
    calc normalizeFilename (normalizeFilename s)
        = normalizeFilename (String.mk (normalizeFilename s).data) := by rw [hmk]
      _ = String.mk (normalizeFilename s).data := normalizeFilename_fixed h1 h2
      _ = normalizeFilename s := hmk
  · intro l hall hadj
    exact normalizeFilename_fixed hall hadj

/-- Witness for C7 at the spec's example output: the already-normalized
string "female-elf-archer" is a fixed point of the normalization. -/
theorem normalizeFilename_idempotent_witness :
    normalizeFilename (String.mk
      ['f','e','m','a','l','e','-','e','l','f','-','a','r','c','h','e','r']) =
    String.mk
      ['f','e','m','a','l','e','-','e','l','f','-','a','r','c','h','e','r'] :=
  normalizeFilename_idempotent.2 _ (by decide) (by decide)

/-! ## Response parsing and validation (gemini service)

`analyzeImageAndSuggestMetadata` runs `JSON.parse` on the response text and
then checks

  if (!metadata.filename || !metadata.title || !metadata.description ||
      !Array.isArray(metadata.tags)) throw invalid-structure

A `SyntaxError` escaping `JSON.parse` is reported as the parse-error
message; every other failure becomes the generic analyze-failure message.
We model parsed JSON values explicitly and JavaScript property access and
truthiness over them. -/

/-- Parsed JSON values (what `JSON.parse` can return). -/
inductive Json where
  | null
  | bool (b : Bool)
  | num (n : Int)
  | str (s : String)
  | arr (elems : List Json)
  | obj (fields : List (String × Json))
deriving Repr

/-- Property access `o[k]` on a parsed object: `some` when the key is
present, `none` plays the role of `undefined`.  `JSON.parse` output holds
at most one binding per key, so lookup order is immaterial. -/
def getField (fields : List (String × Json)) (k : String) : Option Json :=
  (fields.find? (fun f => decide (f.1 = k))).map (fun f => f.2)

/-- JavaScript truthiness of a parsed JSON value. -/
def truthy : Json → Bool
  | .null => false
  | .bool b => b
  | .num n => decide (n ≠ 0)
  | .str s => decide (s ≠ "")
  | .arr _ => true
  | .obj _ => true

/-- Truthiness of a possibly-absent property (`undefined` is falsy). -/
def truthyOpt : Option Json → Bool
  | none => false
  | some j => truthy j

/-- `Array.isArray` applied to a possibly-absent property. -/
def isArrayOpt : Option Json → Bool
  | some (.arr _) => true
  | _ => false

/-- Test that a possibly-absent property is an array whose elements are
all strings ("a sequence of strings").  The source never performs this
elementwise check; the definition exists to state what the spec asks. -/
def isStringArrayOpt : Option Json → Bool
  | some (.arr xs) => xs.all (fun x => match x with | .str _ => true | _ => false)
  | _ => false

/-- Embedding of the shape check of `analyzeImageAndSuggestMetadata`:
passes exactly when the Boolean chain
`!filename || !title || !description || !Array.isArray(tags)` is false.
On a non-object parse result every property access yields `undefined`
(falsy), so the check throws there as well (on a `null` root the property
access itself throws; either way the analysis fails outside the
`SyntaxError` branch). -/
def validResponseShape (j : Json) : Bool :=
  match j with
  | .obj fields =>
    !(!truthyOpt (getField fields "filename") ||
      !truthyOpt (getField fields "title") ||
      !truthyOpt (getField fields "description") ||
      !isArrayOpt (getField fields "tags"))
  | _ => false

/-- Internal error taxonomy of `analyzeImageAndSuggestMetadata`:
`parseError` is the `SyntaxError` branch of the catch ("Could not parse
the AI's response"), `shapeError` the invalid-structure branch surfaced
through the generic message. -/
inductive AnalyzeError where
  | parseError
  | shapeError
deriving DecidableEq, Repr

/-- Embedding of the parse-and-validate step.  The response body is
modelled post-tokenization: `none` stands for a body that is not
well-formed JSON (`JSON.parse` throws `SyntaxError`), `some j` for a body
parsing to `j`. -/
def parseAndValidate : Option Json → Except AnalyzeError Json
  | none => .error .parseError
  | some j => if validResponseShape j then .ok j else .error .shapeError

/-- Fields of a response carrying all four keys where `tags` is an array
of numbers rather than strings. -/
def numberTagsFields : List (String × Json) :=
  [("filename", .str "a"), ("title", .str "b"),
   ("description", .str "c"), ("tags", .arr [.num 1])]

/-- Fields of a response carrying all four keys, `tags` a string array,
but `filename` the empty string. -/
def emptyFilenameFields : List (String × Json) :=
  [("filename", .str ""), ("title", .str "b"),
   ("description", .str "c"), ("tags", .arr [.str "t"])]

/-- C3 counterexample: the claim's characterization of the shape check
fails in both directions.  A response with all four fields present whose
`tags` is an array of numbers (not a sequence of strings) passes
validation, although the claim says it must fail with a shape error; and
a response with all four fields present, `tags` a string array, but an
empty-string `filename` fails with a shape error, although the claim says
validation succeeds. -/
theorem validResponseShape_refutes_claim :
    (validResponseShape (.obj numberTagsFields) = true ∧
      isStringArrayOpt (getField numberTagsFields "tags") = false) ∧
    (validResponseShape (.obj emptyFilenameFields) = false ∧
      (getField emptyFilenameFields "filename").isSome = true ∧
      (getField emptyFilenameFields "title").isSome = true ∧
      (getField emptyFilenameFields "description").isSome = true ∧
      isStringArrayOpt (getField emptyFilenameFields "tags") = true) := by
  decide

/-- C3 as amended: the client fails with a parse error exactly when the
body is not well-formed JSON; on a parsed body it fails with a shape
error exactly when the parsed value is not an object, or one of
`filename`, `title`, `description` is absent or falsy (in particular the
empty string), or `tags` is absent or not an array — the elements of
`tags` are never checked to be strings; otherwise validation succeeds. -/
theorem parseAndValidate_spec (o : Option Json) :
    (parseAndValidate o = .error .parseError ↔ o = none) ∧
    (∀ j, o = some j →
      (parseAndValidate o = .ok j ↔
        (∃ fields, j = .obj fields ∧
          truthyOpt (getField fields "filename") = true ∧
          truthyOpt (getField fields "title") = true ∧
          truthyOpt (getField fields "description") = true ∧
          isArrayOpt (getField fields "tags") = true))) := by
  constructor
  · cases o with
    | none => simp [parseAndValidate]
    | some j =>
      simp only [parseAndValidate]
      constructor
      · intro hcontra
        split at hcontra <;> simp_all
      · intro hcontra
        exact Option.noConfusion hcontra
  · intro j ho
    subst ho
    simp only [parseAndValidate]
    by_cases h : validResponseShape j = true
    · rw [if_pos h]
      constructor
      · intro _
        cases j with
        | obj fields =>
          simp only [validResponseShape, Bool.not_eq_true',
            Bool.or_eq_false_iff, Bool.not_eq_false'] at h
          exact ⟨fields, rfl, h.1.1.1, h.1.1.2, h.1.2, h.2⟩
        | null => exact absurd h (by simp [validResponseShape])
        | bool b => exact absurd h (by simp [validResponseShape])
        | num n => exact absurd h (by simp [validResponseShape])
        | str s => exact absurd h (by simp [validResponseShape])
        | arr xs => exact absurd h (by simp [validResponseShape])
      · intro _; rfl
    · rw [if_neg h]
      constructor
      · intro hcontra
        exact Except.noConfusion hcontra
      · rintro ⟨fields, rfl, h1, h2, h3, h4⟩
        exact absurd (by simp [validResponseShape, h1, h2, h3, h4]) h

/-- Witness for C3's amended theorem at a concrete input: the
number-tagged response parses and validates successfully. -/
theorem parseAndValidate_spec_witness :
    parseAndValidate (some (.obj numberTagsFields)) = .ok (.obj numberTagsFields) :=
  ((parseAndValidate_spec (some (.obj numberTagsFields))).2 _ rfl).2
    ⟨numberTagsFields, rfl, by decide, by decide, by decide, by decide⟩

/-- C10: on responses where all four fields are present with `filename`,
`title`, `description` string-valued and `tags` an array, validation
succeeds exactly when the three strings are all non-empty; when one of
them is the empty string the client fails with the shape error. -/
theorem emptyString_fields_rejected
    (fields : List (String × Json)) (fn ti de : String) (tagsArr : List Json)
    (hfn : getField fields "filename" = some (.str fn))
    (hti : getField fields "title" = some (.str ti))
    (hde : getField fields "description" = some (.str de))
    (hta : getField fields "tags" = some (.arr tagsArr)) :
    (parseAndValidate (some (.obj fields)) = .ok (.obj fields) ↔
      (fn ≠ "" ∧ ti ≠ "" ∧ de ≠ "")) ∧
    (parseAndValidate (some (.obj fields)) = .error .shapeError ↔
      (fn = "" ∨ ti = "" ∨ de = "")) := by
  have hb : validResponseShape (.obj fields) =
      (decide (fn ≠ "") && decide (ti ≠ "") && decide (de ≠ "")) := by
    simp [validResponseShape, hfn, hti, hde, hta, truthyOpt, truthy, isArrayOpt]
  constructor
  · simp only [parseAndValidate, hb]
    by_cases h1 : fn = "" <;> by_cases h2 : ti = "" <;> by_cases h3 : de = "" <;>
      simp [h1, h2, h3]
  · simp only [parseAndValidate, hb]
    by_cases h1 : fn = "" <;> by_cases h2 : ti = "" <;> by_cases h3 : de = "" <;>
      simp [h1, h2, h3]

/-- Witness for C10 at a concrete input: the all-fields-present response
with an empty `filename` is rejected with the shape error. -/
theorem emptyString_fields_rejected_witness :
    parseAndValidate (some (.obj emptyFilenameFields)) = .error .shapeError :=
  (emptyString_fields_rejected emptyFilenameFields "" "b" "c" [.str "t"]
    rfl rfl rfl rfl).2.2 (Or.inl rfl)

/-! ## UCS-2 byte encoding and the export metadata block (App component)

The App component defines

  const toUcs2Bytes = (str) => { const bytes = [];
    for (let i = 0; i < str.length; i++) {
        bytes.push(str.charCodeAt(i) & 0xff);
        bytes.push((str.charCodeAt(i) >> 8) & 0xff); }
    bytes.push(0, 0); return bytes; }

and, in `processAndDownloadAll`, the EXIF 0th IFD

  { ImageDescription: metadata.description,
    XPTitle: toUcs2Bytes(metadata.title),
    XPAuthor: toUcs2Bytes("Game Art Assistant"),
    XPComment: toUcs2Bytes(metadata.description),
    XPKeywords: toUcs2Bytes(metadata.tags.join(';')) }

JavaScript strings are sequences of UTF-16 code units (`str.length` and
`charCodeAt` act on code units), so the loop is modelled over the UTF-16
code units of the string. -/

/-- UTF-16 code units of one Unicode scalar value. -/
def charUtf16Units (c : Char) : List Nat :=
  if c.toNat < 0x10000 then [c.toNat]
  else
    [0xD800 + (c.toNat - 0x10000) / 0x400, 0xDC00 + (c.toNat - 0x10000) % 0x400]

/-- UTF-16 code units of a string, in order. -/
def utf16CodeUnits (s : String) : List Nat := s.data.flatMap charUtf16Units

/-- Embedding of `toUcs2Bytes`: the JavaScript loop pushes, for each code
unit in order, its low byte (`u & 0xff`) then its high byte
(`(u >> 8) & 0xff`), and finally a two-byte null terminator. -/
def toUcs2Bytes (s : String) : List Nat :=
  (utf16CodeUnits s).foldl (fun bytes u => bytes ++ [u % 256, u / 256 % 256]) []
    ++ [0, 0]

/-- Embedding of the 0th-IFD metadata block built per exported item. -/
structure ExifZeroth where
  imageDescription : String
  xpTitle : List Nat
  xpAuthor : List Nat
  xpComment : List Nat
  xpKeywords : List Nat
deriving DecidableEq, Repr

/-- The 0th IFD constructed in `processAndDownloadAll` for an item's
metadata. -/
def buildZeroth (m : ImageMetadata) : ExifZeroth :=
  { imageDescription := m.description
    xpTitle := toUcs2Bytes m.title
    xpAuthor := toUcs2Bytes "Game Art Assistant"
    xpComment := toUcs2Bytes m.description
    xpKeywords := toUcs2Bytes (String.intercalate ";" m.tags) }

theorem foldl_append_blocks (g : Nat → List Nat) :
    ∀ (l : List Nat) (init : List Nat),
      l.foldl (fun acc u => acc ++ g u) init = init ++ l.flatMap g := by
  intro l
  induction l with
  | nil => intro init; simp
  | cons u us ih =>
    intro init
    rw [List.foldl_cons, ih (init ++ g u), List.flatMap_cons, List.append_assoc]

theorem length_flatMap_pairs (g₁ g₂ : Nat → Nat) :
    ∀ l : List Nat, (l.flatMap (fun u => [g₁ u, g₂ u])).length = 2 * l.length := by
  intro l
  induction l with
  | nil => rfl
  | cons u us ih =>
    rw [List.flatMap_cons, List.length_append, ih]
    simp [Nat.mul_succ, Nat.add_comm]

/-- C8: for every exported item, the title, author, comment and keywords
fields are the UTF-16LE code-unit encodings of their texts — for each
code unit the low byte then the high byte — followed by a two-byte null
terminator, so a text of `n` UTF-16 code units is encoded in exactly
`2 * n + 2` bytes; the comment carries the description's text, the author
the constant "Game Art Assistant", and the keywords the tag list joined
with a semicolon. -/
theorem exportMetadataEncoding :
    (∀ s : String,
      toUcs2Bytes s =
        (utf16CodeUnits s).flatMap (fun u => [u % 256, u / 256 % 256]) ++ [0, 0] ∧
      (toUcs2Bytes s).length = 2 * (utf16CodeUnits s).length + 2) ∧
    (∀ m : ImageMetadata,
      (buildZeroth m).xpTitle = toUcs2Bytes m.title ∧
      (buildZeroth m).xpComment = toUcs2Bytes m.description ∧
      (buildZeroth m).xpAuthor = toUcs2Bytes "Game Art Assistant" ∧
      (buildZeroth m).xpKeywords = toUcs2Bytes (String.intercalate ";" m.tags)) := by
  constructor
  · intro s
    have he : toUcs2Bytes s =
        (utf16CodeUnits s).flatMap (fun u => [u % 256, u / 256 % 256]) ++ [0, 0] := by
      rw [toUcs2Bytes, foldl_append_blocks _ (utf16CodeUnits s) [], List.nil_append]
    refine ⟨he, ?_⟩
    rw [he, List.length_append,
      length_flatMap_pairs (fun u => u % 256) (fun u => u / 256 % 256)]
    rfl
  · intro m
    exact ⟨rfl, rfl, rfl, rfl⟩

/-! ## Per-item analysis and the batch orchestrator (App component)

`updateImageFile(id, updates)` merges a partial record into the item with
the given id.  `handleGenerateMetadataForOne(id)` looks the item up in the
component's captured snapshot of the collection, sets
`{status: LOADING, error: null}` (never clearing `metadata`), awaits the
analysis, and then sets either `{status: SUCCESS, metadata}` or
`{status: ERROR, error}`.  `handleGenerateAllMetadata` iterates the
snapshot in order and awaits each eligible item's analysis before moving
to the next; the embedding's left fold is exactly this sequential order.
The external service call is abstracted by a function `analyze` from the
image bytes to an outcome. -/

/-- Embedding of `updateImageFile`: apply `upd` to the item whose id
matches (the source merges a partial record; each call site's concrete
merge is the function passed here). -/
def updateImageFile (files : List ImageFile) (id : String)
    (upd : ImageFile → ImageFile) : List ImageFile :=
  files.map fun f => if f.id = id then upd f else f

/-- Net record update performed on item `f`'s record `g` by a completed
analysis of `f`: first `{status: LOADING, error: null}`, then the
outcome's update. -/
def analysisUpdate (analyze : String → Except String ImageMetadata)
    (f : ImageFile) (g : ImageFile) : ImageFile :=
  match analyze f.file with
  | .ok m => { g with status := .SUCCESS, metadata := some m, error := none }
  | .error msg => { g with status := .ERROR, error := some msg }

/-- The record of item `f` after its own analysis completes. -/
def analyzedItem (analyze : String → Except String ImageMetadata)
    (f : ImageFile) : ImageFile :=
  analysisUpdate analyze f f

/-- The trigger condition of the batch loop:
`status === IDLE || status === ERROR`. -/
def needsAnalysis (f : ImageFile) : Bool :=
  decide (f.status = .IDLE) || decide (f.status = .ERROR)

/-- Embedding of `handleGenerateMetadataForOne` (final state after the
awaited analysis): `snapshot` is the collection captured by the callback's
closure, `cur` the live collection the functional state updates apply
to. -/
def handleGenerateMetadataForOne (analyze : String → Except String ImageMetadata)
    (snapshot cur : List ImageFile) (id : String) : List ImageFile :=
  match snapshot.find? (fun f => decide (f.id = id)) with
  | none => cur
  | some imageFile =>
    let loading := updateImageFile cur id fun f =>
      { f with status := .LOADING, error := none }
    match analyze imageFile.file with
    | .ok m => updateImageFile loading id fun f =>
        { f with status := .SUCCESS, metadata := some m }
    | .error msg => updateImageFile loading id fun f =>
        { f with status := .ERROR, error := some msg }

/-- Embedding of `handleGenerateAllMetadata`: fold over the call-time
snapshot in collection order, running the single-item analysis for each
item whose snapshot status is IDLE or ERROR. -/
def handleGenerateAllMetadata (analyze : String → Except String ImageMetadata)
    (files : List ImageFile) : List ImageFile :=
  files.foldl
    (fun cur f =>
      if needsAnalysis f then
        handleGenerateMetadataForOne analyze files cur f.id
      else cur)
    files

theorem analysisUpdate_id (analyze : String → Except String ImageMetadata)
    (f g : ImageFile) : (analysisUpdate analyze f g).id = g.id := by
  unfold analysisUpdate
  cases analyze f.file <;> rfl

theorem updateImageFile_comp (cur : List ImageFile) (id : String)
    (u₁ u₂ : ImageFile → ImageFile) (h : ∀ g, (u₁ g).id = g.id) :
    updateImageFile (updateImageFile cur id u₁) id u₂ =
      updateImageFile cur id (fun g => u₂ (u₁ g)) := by
  unfold updateImageFile
  rw [List.map_map]
  apply List.map_congr_left
  intro f _
  by_cases hf : f.id = id
  · simp [Function.comp, hf, h f]
  · simp [Function.comp, hf]

theorem find?_self_of_nodup :
    ∀ (files : List ImageFile), (files.map (fun f => f.id)).Nodup →
      ∀ f ∈ files, files.find? (fun g => decide (g.id = f.id)) = some f := by
  intro files
  induction files with
  | nil => intro _ f hf; cases hf
  | cons g gs ih =>
    intro hnd f hf
    rw [List.map_cons, List.nodup_cons] at hnd
    rcases List.mem_cons.1 hf with hfg | hfs
    · subst hfg
      simp [List.find?]
    · have hne : g.id ≠ f.id := by
        intro he
        exact hnd.1 (he ▸ List.mem_map_of_mem (fun f => f.id) hfs)
      rw [List.find?_cons_of_neg _ (by simpa using hne)]
      exact ih hnd.2 f hfs

theorem find?_cond_of_nodup (q : ImageFile → Bool) :
    ∀ (files : List ImageFile), (files.map (fun f => f.id)).Nodup →
      ∀ g ∈ files,
        files.find? (fun t => decide (t.id = g.id) && q t) =
          if q g then some g else none := by
  intro files
  induction files with
  | nil => intro _ g hg; cases hg
  | cons t ts ih =>
    intro hnd g hg
    rw [List.map_cons, List.nodup_cons] at hnd
    rcases List.mem_cons.1 hg with hgt | hgs
    · subst hgt
      by_cases hq : q g = true
      · rw [List.find?_cons_of_pos _ (by simp [hq]), if_pos hq]
      · rw [if_neg hq, List.find?_cons_of_neg _ (by simp [hq])]
        apply List.find?_eq_none.2
        intro x hx
        have hne : g.id ≠ x.id := fun he =>
          hnd.1 (he ▸ List.mem_map_of_mem (fun f => f.id) hx)
        simp only [Bool.and_eq_true, decide_eq_true_eq, not_and]
        intro he
        exact (hne he.symm).elim
    · have hne : t.id ≠ g.id := fun he =>
        hnd.1 (he ▸ List.mem_map_of_mem (fun f => f.id) hgs)
      rw [List.find?_cons_of_neg _ (by simp [hne])]
      exact ih hnd.2 g hgs

theorem handleGenerateMetadataForOne_eq
    (analyze : String → Except String ImageMetadata)
    (snapshot cur : List ImageFile) (f : ImageFile)
    (hfind : snapshot.find? (fun g => decide (g.id = f.id)) = some f) :
    handleGenerateMetadataForOne analyze snapshot cur f.id =
      updateImageFile cur f.id (analysisUpdate analyze f) := by
  simp only [handleGenerateMetadataForOne, hfind]
  cases hout : analyze f.file with
  | ok m =>
    dsimp only
    rw [updateImageFile_comp cur f.id
      (fun f => { f with status := .LOADING, error := none })
      (fun f => { f with status := .SUCCESS, metadata := some m })
      (fun g => rfl)]
    apply congrArg
    funext g
    simp [analysisUpdate, hout]
  | error msg =>
    dsimp only
    rw [updateImageFile_comp cur f.id
      (fun f => { f with status := .LOADING, error := none })
      (fun f => { f with status := .ERROR, error := some msg })
      (fun g => rfl)]
    apply congrArg
    funext g
    simp [analysisUpdate, hout]

/-- Net effect on the live collection `cur` of running the batch loop over
the still-pending snapshot items `todo`: each record is rewritten by the
analysis outcome of the unique pending item sharing its id, if any. -/
def applyTodo (analyze : String → Except String ImageMetadata)
    (todo : List ImageFile) (cur : List ImageFile) : List ImageFile :=
  cur.map fun g =>
    match todo.find? (fun t => decide (t.id = g.id) && needsAnalysis t) with
    | some t => analysisUpdate analyze t g
    | none => g

theorem applyTodo_cons (analyze : String → Except String ImageMetadata)
    (t : ImageFile) (ts : List ImageFile) (cur : List ImageFile)
    (hnotin : t.id ∉ ts.map (fun f => f.id)) :
    applyTodo analyze (t :: ts) cur =
      applyTodo analyze ts
        (if needsAnalysis t then
          updateImageFile cur t.id (analysisUpdate analyze t)
        else cur) := by
  by_cases htrig : needsAnalysis t = true
  · rw [if_pos htrig]
    unfold applyTodo updateImageFile
    rw [List.map_map]
    refine List.map_congr_left fun g _ => ?_
    simp only [Function.comp_apply]
    by_cases hid : g.id = t.id
    · rw [if_pos hid]
      have hx : (analysisUpdate analyze t g).id = t.id := by
        rw [analysisUpdate_id]; exact hid
      have h2 : ts.find?
          (fun x => decide (x.id = (analysisUpdate analyze t g).id) &&
            needsAnalysis x) = none := by
        apply List.find?_eq_none.2
        intro x hxm
        have hne : t.id ≠ x.id := fun he =>
          hnotin (he ▸ List.mem_map_of_mem (fun f => f.id) hxm)
        simp only [hx, Bool.and_eq_true, decide_eq_true_eq, not_and]
        intro he
        exact (hne he.symm).elim
      have h1 : (t :: ts).find?
          (fun x => decide (x.id = g.id) && needsAnalysis x) = some t :=
        List.find?_cons_of_pos _ (by simp [hid.symm, htrig])
      rw [h1, h2]
    · rw [if_neg hid]
      have h1 : (t :: ts).find?
          (fun x => decide (x.id = g.id) && needsAnalysis x) =
          ts.find? (fun x => decide (x.id = g.id) && needsAnalysis x) :=
        List.find?_cons_of_neg _ (by
          simp only [Bool.and_eq_true, decide_eq_true_eq, not_and]
          intro he
          exact ((fun h => hid h.symm) he).elim)
      rw [h1]
  · rw [if_neg htrig]
    unfold applyTodo
    refine List.map_congr_left fun g _ => ?_
    have h1 : (t :: ts).find?
        (fun x => decide (x.id = g.id) && needsAnalysis x) =
        ts.find? (fun x => decide (x.id = g.id) && needsAnalysis x) :=
      List.find?_cons_of_neg _ (by simp [htrig])
    rw [h1]

theorem generateAll_fold
    (analyze : String → Except String ImageMetadata)
    (snapshot : List ImageFile) :
    ∀ (todo : List ImageFile), (todo.map (fun f => f.id)).Nodup →
      (∀ t ∈ todo, snapshot.find? (fun g => decide (g.id = t.id)) = some t) →
      ∀ cur : List ImageFile,
        todo.foldl
          (fun cur f =>
            if needsAnalysis f then
              handleGenerateMetadataForOne analyze snapshot cur f.id
            else cur) cur =
        applyTodo analyze todo cur := by
  intro todo
  induction todo with
  | nil =>
    intro _ _ cur
    simp [applyTodo, List.find?]
  | cons t ts ih =>
    intro hnd hsnap cur
    rw [List.map_cons, List.nodup_cons] at hnd
    rw [List.foldl_cons, applyTodo_cons analyze t ts cur hnd.1]
    by_cases htrig : needsAnalysis t = true
    · rw [if_pos htrig, if_pos htrig,
        handleGenerateMetadataForOne_eq analyze snapshot cur t
          (hsnap t (by simp))]
      exact ih hnd.2 (fun x hx => hsnap x (by simp [hx])) _
    · rw [if_neg htrig, if_neg htrig]
      exact ih hnd.2 (fun x hx => hsnap x (by simp [hx])) _

/-- C5: when item ids are distinct (they are fresh UUIDs at upload),
`generateAll` analyzes exactly the items whose status was IDLE or ERROR
at call time, in collection order (the fold is the source's sequential
awaited loop), and maps each such item to its analysis outcome; every
other item — in particular every item already SUCCESS at call time — is
returned unchanged, with its status and metadata intact. -/
theorem handleGenerateAllMetadata_spec
    (analyze : String → Except String ImageMetadata)
    (files : List ImageFile) (hids : (files.map (fun f => f.id)).Nodup) :
    handleGenerateAllMetadata analyze files =
      files.map fun f =>
        if needsAnalysis f then analyzedItem analyze f else f := by
  unfold handleGenerateAllMetadata
  rw [generateAll_fold analyze files files hids
    (fun t ht => find?_self_of_nodup files hids t ht) files]
  unfold applyTodo
  apply List.map_congr_left
  intro g hg
  rw [find?_cond_of_nodup needsAnalysis files hids g hg]
  by_cases hq : needsAnalysis g = true
  · rw [if_pos hq, if_pos hq]; rfl
  · rw [if_neg hq, if_neg hq]

/-- Concrete analysis oracle for the C5 witness: succeeds on one image's
bytes, fails on all others. -/
def analyzeDemo : String → Except String ImageMetadata := fun file =>
  if file = "bytes1" then
    .ok ⟨"forest", "Forest", "Trees", ["forest"]⟩
  else .error "service unavailable"

/-- Concrete collection for the C5 witness: one IDLE item, one SUCCESS
item with metadata, one ERROR item. -/
def demoFiles : List ImageFile :=
  [ { id := "1", file := "bytes1", previewUrl := "u1", metadata := none,
      status := .IDLE, error := none },
    { id := "2", file := "bytes2", previewUrl := "u2",
      metadata := some ⟨"hero", "Hero", "A hero", ["hero"]⟩,
      status := .SUCCESS, error := none },
    { id := "3", file := "bytes3", previewUrl := "u3", metadata := none,
      status := .ERROR, error := some "old failure" } ]

/-- Witness for C5 at a concrete input: on `demoFiles` (distinct ids,
checked by `decide`) the batch generator analyzes the IDLE and ERROR
items and leaves the SUCCESS item untouched. -/
theorem handleGenerateAllMetadata_spec_witness :
    handleGenerateAllMetadata analyzeDemo demoFiles =
      demoFiles.map fun f =>
        if needsAnalysis f then analyzedItem analyzeDemo f else f :=
  handleGenerateAllMetadata_spec analyzeDemo demoFiles (by decide)

/-! ## Bulk custom tags (App component)

`handleApplyCustomTags` reads

  if (!customTagsInput.trim()) return;
  const newTags = customTagsInput.split(',').map(t => t.trim()).filter(Boolean);
  if (newTags.length === 0) return;
  for each file: if (file.status === SUCCESS && file.metadata)
    tags := Array.from(new Set([...file.metadata.tags, ...newTags]))

JavaScript's `split(',')`, `trim`, and insertion-ordered `Set` are
modelled character- and element-exactly. -/

/-- JavaScript `split(',')` at the character level: splits on every comma,
keeping empty groups, always returning at least one group. -/
def splitOnComma : List Char → List (List Char)
  | [] => [[]]
  | c :: cs =>
    if c = ',' then [] :: splitOnComma cs
    else
      match splitOnComma cs with
      | [] => [[c]]
      | g :: gs => (c :: g) :: gs

/-- JavaScript `trim` at the character level: drop whitespace from both
ends. -/
def trimChars (l : List Char) : List Char :=
  ((l.dropWhile isJsSpace).reverse.dropWhile isJsSpace).reverse

/-- Embedding of `customTagsInput.split(',').map(t => t.trim()).filter(Boolean)`. -/
def parseTags (input : String) : List String :=
  (((splitOnComma input.data).map trimChars).filter
    (fun l => decide (l ≠ []))).map String.mk

/-- One step of insertion-ordered `Set` construction: append the element
unless already present. -/
def insertTag (acc : List String) (t : String) : List String :=
  if t ∈ acc then acc else acc ++ [t]

/-- `Array.from(new Set(l))`: first-occurrence-ordered deduplication. -/
def dedupFirst (l : List String) : List String := l.foldl insertTag []

/-- Per-item body of the bulk-tag map: for a success item with metadata,
replace the tag list by the insertion-ordered deduplication of existing
tags followed by the new tags; leave every other item unchanged. -/
def bulkTagItem (newTags : List String) (file : ImageFile) : ImageFile :=
  match file.status, file.metadata with
  | AppStatus.SUCCESS, some md =>
    let merged : ImageMetadata := { md with tags := dedupFirst (md.tags ++ newTags) }
    { file with metadata := some merged }
  | _, _ => file

/-- Embedding of `handleApplyCustomTags` acting on the collection. -/
def handleApplyCustomTags (input : String) (files : List ImageFile) :
    List ImageFile :=
  if trimChars input.data = [] then files
  else
    let newTags := parseTags input
    if newTags = [] then files
    else files.map (bulkTagItem newTags)

/-- The bulk-tag operation exactly as the claim words it: parse the
comma-separated input and, for every success item, replace its tag list by
the deduplicated concatenation of existing then new tags, with no guard on
an empty candidate list.  Stated from the spec for comparison with
`handleApplyCustomTags`. -/
def bulkTagsClaim (input : String) (files : List ImageFile) :
    List ImageFile :=
  files.map (bulkTagItem (parseTags input))

theorem mem_foldl_insertTag :
    ∀ (l : List String) (acc : List String) (x : String),
      x ∈ l.foldl insertTag acc ↔ x ∈ acc ∨ x ∈ l := by
  intro l
  induction l with
  | nil => intro acc x; simp
  | cons t ts ih =>
    intro acc x
    rw [List.foldl_cons, ih]
    by_cases ht : t ∈ acc
    · have hstep : insertTag acc t = acc := by
        unfold insertTag; rw [if_pos ht]
      rw [hstep]
      constructor
      · rintro (hx | hx)
        · exact Or.inl hx
        · exact Or.inr (List.mem_cons_of_mem t hx)
      · rintro (hx | hx)
        · exact Or.inl hx
        · rcases List.mem_cons.1 hx with rfl | hx
          · exact Or.inl ht
          · exact Or.inr hx
    · have hstep : insertTag acc t = acc ++ [t] := by
        unfold insertTag; rw [if_neg ht]
      rw [hstep]
      simp only [List.mem_append, List.mem_singleton, List.mem_cons]
      tauto

theorem foldl_insertTag_absorb :
    ∀ (l : List String) (acc : List String), (∀ x ∈ l, x ∈ acc) →
      l.foldl insertTag acc = acc := by
  intro l
  induction l with
  | nil => intro acc _; rfl
  | cons t ts ih =>
    intro acc h
    have hstep : insertTag acc t = acc := by
      unfold insertTag; rw [if_pos (h t (by simp))]
    rw [List.foldl_cons, hstep]
    exact ih acc fun x hx => h x (by simp [hx])

theorem nodup_foldl_insertTag :
    ∀ (l : List String) (acc : List String), acc.Nodup →
      (l.foldl insertTag acc).Nodup := by
  intro l
  induction l with
  | nil => intro acc h; exact h
  | cons t ts ih =>
    intro acc h
    by_cases ht : t ∈ acc
    · have hstep : insertTag acc t = acc := by
        unfold insertTag; rw [if_pos ht]
      rw [List.foldl_cons, hstep]
      exact ih acc h
    · have hstep : insertTag acc t = acc ++ [t] := by
        unfold insertTag; rw [if_neg ht]
      rw [List.foldl_cons, hstep]
      refine ih _ ?_
      rw [List.nodup_append]
      refine ⟨h, List.nodup_singleton t, ?_⟩
      intro a hmem hmem2
      rw [List.mem_singleton] at hmem2
      exact ht (hmem2 ▸ hmem)

theorem foldl_insertTag_of_nodup :
    ∀ (l : List String) (acc : List String), l.Nodup →
      (∀ x ∈ l, x ∉ acc) → l.foldl insertTag acc = acc ++ l := by
  intro l
  induction l with
  | nil => intro acc _ _; simp
  | cons t ts ih =>
    intro acc hnd hdisj
    have hstep : insertTag acc t = acc ++ [t] := by
      unfold insertTag; rw [if_neg (hdisj t (by simp))]
    rw [List.nodup_cons] at hnd
    rw [List.foldl_cons, hstep,
      ih (acc ++ [t]) hnd.2 (fun x hx => by
        simp only [List.mem_append, List.mem_singleton]
        rintro (hmem | rfl)
        · exact hdisj x (by simp [hx]) hmem
        · exact hnd.1 hx)]
    simp

theorem dedupFirst_nodup (l : List String) : (dedupFirst l).Nodup :=
  nodup_foldl_insertTag l [] List.nodup_nil

theorem dedupFirst_of_nodup (l : List String) (h : l.Nodup) :
    dedupFirst l = l := by
  unfold dedupFirst
  rw [foldl_insertTag_of_nodup l [] h (by simp)]
  simp

theorem mem_dedupFirst (l : List String) (x : String) :
    x ∈ dedupFirst l ↔ x ∈ l := by
  unfold dedupFirst
  rw [mem_foldl_insertTag]
  simp

theorem dedupFirst_merge_idem (a b : List String) :
    dedupFirst (dedupFirst (a ++ b) ++ b) = dedupFirst (a ++ b) := by
  unfold dedupFirst
  rw [List.foldl_append]
  rw [show List.foldl insertTag [] (List.foldl insertTag [] (a ++ b)) =
      List.foldl insertTag [] (a ++ b) from
    dedupFirst_of_nodup _ (dedupFirst_nodup (a ++ b))]
  exact foldl_insertTag_absorb b _ fun x hx =>
    (mem_dedupFirst (a ++ b) x).2 (List.mem_append_right a hx)

theorem allSpace_of_trim_nil {l : List Char} (h : trimChars l = []) :
    ∀ c ∈ l, isJsSpace c = true := by
  unfold trimChars at h
  rw [List.reverse_eq_nil_iff, List.dropWhile_eq_nil_iff] at h
  intro c hc
  have hsplit := List.takeWhile_append_dropWhile isJsSpace l
  rw [← hsplit] at hc
  rcases List.mem_append.1 hc with hc | hc
  · exact List.mem_takeWhile_imp hc
  · exact h c (List.mem_reverse.2 hc)

theorem splitOnComma_no_comma :
    ∀ l : List Char, (∀ c ∈ l, c ≠ ',') → splitOnComma l = [l] := by
  intro l
  induction l with
  | nil => intro _; rfl
  | cons c cs ih =>
    intro h
    unfold splitOnComma
    rw [if_neg (h c (by simp)), ih fun x hx => h x (by simp [hx])]

theorem parseTags_nil_of_trim_nil {input : String}
    (h : trimChars input.data = []) : parseTags input = [] := by
  have hsp := allSpace_of_trim_nil h
  have hnc : ∀ c ∈ input.data, c ≠ ',' := by
    intro c hc he
    have := hsp c hc
    rw [he] at this
    exact absurd this (by decide)
  unfold parseTags
  rw [splitOnComma_no_comma input.data hnc]
  simp [h]

theorem bulkTagItem_idem (nt : List String) (f : ImageFile) :
    bulkTagItem nt (bulkTagItem nt f) = bulkTagItem nt f := by
  rcases f with ⟨i, fl, u, meta, status, err⟩
  cases status <;> cases meta <;> try rfl
  simp only [bulkTagItem]
  rw [dedupFirst_merge_idem]

/-- Concrete collection refuting C4's unconditional phrasing: one SUCCESS
item whose tag list contains a duplicate (duplicates are reachable through
the per-item tag editor, which does not deduplicate). -/
def dupTagFiles : List ImageFile :=
  [ { id := "1", file := "b", previewUrl := "u",
      metadata := some ⟨"f", "t", "d", ["x", "x"]⟩,
      status := .SUCCESS, error := none } ]

/-- C4 counterexample: on the input "," the parsed candidate list is
empty, and the source returns the collection unchanged, whereas the
claim's unconditional description would replace the success item's tag
list `["x","x"]` by its deduplication `["x"]`. -/
theorem handleApplyCustomTags_ne_claim :
    handleApplyCustomTags "," dupTagFiles = dupTagFiles ∧
    bulkTagsClaim "," dupTagFiles ≠ dupTagFiles := by
  decide

/-- C4 as amended: when the parsed candidate list is empty the operation
is a no-op (existing duplicate tags are not collapsed); when it is
non-empty, every success item's tag list becomes the first-occurrence
deduplication of existing tags followed by new tags, exactly as the claim
describes, and items not in success status are unchanged; the operation is
idempotent; and the claim's example holds: applying "a, b" to existing
tags `["b","c"]` yields `["b","c","a"]`. -/
theorem handleApplyCustomTags_spec :
    (∀ (input : String) (files : List ImageFile), parseTags input = [] →
      handleApplyCustomTags input files = files) ∧
    (∀ (input : String) (files : List ImageFile), parseTags input ≠ [] →
      handleApplyCustomTags input files = bulkTagsClaim input files) ∧
    (∀ (input : String) (files : List ImageFile),
      handleApplyCustomTags input (handleApplyCustomTags input files) =
        handleApplyCustomTags input files) ∧
    dedupFirst (["b", "c"] ++ parseTags "a, b") = ["b", "c", "a"] := by
  have hnoop : ∀ (input : String) (files : List ImageFile),
      parseTags input = [] → handleApplyCustomTags input files = files := by
    intro input files hp
    unfold handleApplyCustomTags
    by_cases ht : trimChars input.data = []
    · rw [if_pos ht]
    · rw [if_neg ht]
      show (if parseTags input = [] then files
        else files.map (bulkTagItem (parseTags input))) = files
      rw [if_pos hp]
  have hmain : ∀ (input : String) (files : List ImageFile),
      parseTags input ≠ [] →
      handleApplyCustomTags input files = bulkTagsClaim input files := by
    intro input files hp
    have ht : trimChars input.data ≠ [] := fun h =>
      hp (parseTags_nil_of_trim_nil h)
    unfold handleApplyCustomTags
    rw [if_neg ht]
    show (if parseTags input = [] then files
      else files.map (bulkTagItem (parseTags input))) = bulkTagsClaim input files
    rw [if_neg hp]
    rfl
  refine ⟨hnoop, hmain, ?_, by decide⟩
  intro input files
  by_cases hp : parseTags input = []
  · rw [hnoop input files hp, hnoop input files hp]
  · rw [hmain input files hp, hmain input (bulkTagsClaim input files) hp]
    unfold bulkTagsClaim
    rw [List.map_map]
    apply List.map_congr_left
    intro f _
    simp only [Function.comp_apply]
    exact bulkTagItem_idem (parseTags input) f

/-- Witness for C4's amended theorem at a concrete input: applying
"a, b" to the collection rewrites the success item exactly as the claim's
parse-and-merge description says. -/
theorem handleApplyCustomTags_spec_witness :
    handleApplyCustomTags "a, b" dupTagFiles = bulkTagsClaim "a, b" dupTagFiles :=
  handleApplyCustomTags_spec.2.1 "a, b" dupTagFiles (by decide)

/-! ## Export pipeline (App component, `processAndDownloadAll`)

For each item with `status === SUCCESS && metadata`, the source awaits a
canvas decode/re-encode of the image to a JPEG data URL — this `await` sits
OUTSIDE the per-item try/catch — and then, inside the try/catch, builds the
EXIF block, splices it in, fetches the result as a blob and adds it to the
zip under `metadata.filename + ".jpg"`.  The two fallible external stages
are abstracted as functions `decode` (canvas re-encode) and `embed` (EXIF
dump/insert plus blob conversion); byte streams are opaque strings.  The
archive models the external JSZip dependency: `zip.file(name, data)`
creates the entry or, when the name already exists, replaces that entry's
bytes. -/

/-- JSZip `zip.file(name, data)`: update the existing entry under `name`,
or append a new one. -/
def zipFile (archive : List (String × String)) (name data : String) :
    List (String × String) :=
  if archive.any (fun e => decide (e.1 = name)) then
    archive.map (fun e => if e.1 = name then (name, data) else e)
  else archive ++ [(name, data)]

/-- The per-item loop of `processAndDownloadAll` over the already-filtered
list: a `none` metadata is skipped (`if (!metadata) continue`), a decode
failure propagates out of the whole loop (the promise rejection is not
caught), an embed failure is caught and the item skipped, and an embedded
item is added to the archive. -/
def exportLoop (decode : ImageFile → Except String String)
    (embed : ImageMetadata → String → Except String String) :
    List ImageFile → List (String × String) →
      Except String (List (String × String))
  | [], zip => .ok zip
  | f :: rest, zip =>
    match f.metadata with
    | none => exportLoop decode embed rest zip
    | some m =>
      match decode f with
      | .error e => .error e
      | .ok dataUrl =>
        match embed m dataUrl with
        | .error _ => exportLoop decode embed rest zip
        | .ok blob =>
          exportLoop decode embed rest
            (zipFile zip (m.filename ++ ".jpg") blob)

/-- Embedding of `processAndDownloadAll`: filter to success items with
metadata, then run the loop starting from an empty archive.  An `error`
result models the export aborting with no archive produced. -/
def processAndDownloadAll (decode : ImageFile → Except String String)
    (embed : ImageMetadata → String → Except String String)
    (files : List ImageFile) : Except String (List (String × String)) :=
  exportLoop decode embed
    (files.filter
      (fun f => decide (f.status = AppStatus.SUCCESS) && f.metadata.isSome))
    []

/-- Decode stage that fails on the first item's preview and succeeds on
every other (C2 counterexample). -/
def decodeFailFirst : ImageFile → Except String String := fun f =>
  if f.id = "1" then .error "Could not load image for conversion."
  else .ok f.file

/-- Embed stage that always succeeds (C2 counterexample). -/
def embedAlwaysOk : ImageMetadata → String → Except String String :=
  fun _ d => .ok d

/-- Two success items with metadata (C2 counterexample). -/
def exportPairFiles : List ImageFile :=
  [ { id := "1", file := "p1", previewUrl := "v1",
      metadata := some ⟨"one", "t1", "d1", ["a"]⟩,
      status := .SUCCESS, error := none },
    { id := "2", file := "p2", previewUrl := "v2",
      metadata := some ⟨"two", "t2", "d2", ["b"]⟩,
      status := .SUCCESS, error := none } ]

/-- C2 counterexample: a failure in the decode/re-encode step of the
first item is NOT caught — the export rejects as a whole, the second
success item is never processed and no archive is produced — contradicting
the claim that any single-item failure (decode, re-encode, or embed) is
caught and only that item skipped. -/
theorem export_decode_failure_aborts :
    processAndDownloadAll decodeFailFirst embedAlwaysOk exportPairFiles =
      .error "Could not load image for conversion." := by
  rfl

theorem zipFile_names_of_present {zip : List (String × String)}
    {name : String} (data : String)
    (h : zip.any (fun e => decide (e.1 = name)) = true) :
    (zipFile zip name data).map Prod.fst = zip.map Prod.fst := by
  unfold zipFile
  rw [if_pos h, List.map_map]
  apply List.map_congr_left
  intro e _
  by_cases he : e.1 = name
  · simp [Function.comp_apply, he]
  · simp [Function.comp_apply, he]

theorem zipFile_names_of_absent {zip : List (String × String)}
    {name : String} (data : String)
    (h : ¬ zip.any (fun e => decide (e.1 = name)) = true) :
    (zipFile zip name data).map Prod.fst = zip.map Prod.fst ++ [name] := by
  unfold zipFile
  rw [if_neg h]
  simp

theorem mem_zipFile_self (zip : List (String × String)) (name data : String) :
    name ∈ (zipFile zip name data).map Prod.fst := by
  by_cases h : zip.any (fun e => decide (e.1 = name)) = true
  · rw [zipFile_names_of_present data h]
    obtain ⟨e, he, hp⟩ := List.any_eq_true.1 h
    rw [decide_eq_true_eq] at hp
    exact hp ▸ List.mem_map_of_mem Prod.fst he
  · rw [zipFile_names_of_absent data h]
    simp

theorem mem_zipFile_of_mem {zip : List (String × String)} {n : String}
    (name data : String) (hn : n ∈ zip.map Prod.fst) :
    n ∈ (zipFile zip name data).map Prod.fst := by
  by_cases h : zip.any (fun e => decide (e.1 = name)) = true
  · rw [zipFile_names_of_present data h]; exact hn
  · rw [zipFile_names_of_absent data h]; exact List.mem_append_left _ hn

theorem mem_of_mem_zipFile {zip : List (String × String)} {n name data : String}
    (hn : n ∈ (zipFile zip name data).map Prod.fst) :
    n ∈ zip.map Prod.fst ∨ n = name := by
  by_cases h : zip.any (fun e => decide (e.1 = name)) = true
  · rw [zipFile_names_of_present data h] at hn; exact Or.inl hn
  · rw [zipFile_names_of_absent data h] at hn
    rcases List.mem_append.1 hn with hn | hn
    · exact Or.inl hn
    · exact Or.inr (List.mem_singleton.1 hn)

theorem zipFile_nodup {zip : List (String × String)} {name data : String}
    (h : (zip.map Prod.fst).Nodup) :
    ((zipFile zip name data).map Prod.fst).Nodup := by
  by_cases hp : zip.any (fun e => decide (e.1 = name)) = true
  · rw [zipFile_names_of_present data hp]; exact h
  · rw [zipFile_names_of_absent data hp, List.nodup_append]
    refine ⟨h, List.nodup_singleton _, ?_⟩
    intro a ha ha2
    rw [List.mem_singleton] at ha2
    subst ha2
    apply hp
    rw [List.any_eq_true]
    obtain ⟨e, he, hfst⟩ := List.mem_map.1 ha
    exact ⟨e, he, by rw [decide_eq_true_eq]; exact hfst⟩

theorem exportLoop_ok (decode : ImageFile → Except String String)
    (embed : ImageMetadata → String → Except String String) :
    ∀ (todo : List ImageFile),
      (∀ f ∈ todo, ∃ d, decode f = .ok d) →
      ∀ acc : List (String × String),
        ∃ zip, exportLoop decode embed todo acc = .ok zip ∧
          (∀ n ∈ acc.map Prod.fst, n ∈ zip.map Prod.fst) ∧
          (∀ f ∈ todo, ∀ m : ImageMetadata, f.metadata = some m →
            (∃ d b, decode f = .ok d ∧ embed m d = .ok b) →
              (m.filename ++ ".jpg") ∈ zip.map Prod.fst) ∧
          (∀ n ∈ zip.map Prod.fst, n ∈ acc.map Prod.fst ∨
            ∃ f m d b, f ∈ todo ∧ f.metadata = some m ∧
              decode f = .ok d ∧ embed m d = .ok b ∧
              n = m.filename ++ ".jpg") := by
  intro todo
  induction todo with
  | nil =>
    intro _ acc
    exact ⟨acc, rfl, fun n hn => hn, fun f hf => absurd hf (by simp),
      fun n hn => Or.inl hn⟩
  | cons f rest ih =>
    intro hdec acc
    have hdecr : ∀ g ∈ rest, ∃ d, decode g = .ok d :=
      fun g hg => hdec g (by simp [hg])
    cases hm : f.metadata with
    | none =>
      obtain ⟨zip, hrun, hpers, hmem, hprov⟩ := ih hdecr acc
      refine ⟨zip, ?_, hpers, ?_, ?_⟩
      · rw [show exportLoop decode embed (f :: rest) acc =
            exportLoop decode embed rest acc from by
          simp [exportLoop, hm]]
        exact hrun
      · intro g hg m hgm hex
        rcases List.mem_cons.1 hg with rfl | hg
        · rw [hm] at hgm; cases hgm
        · exact hmem g hg m hgm hex
      · intro n hn
        rcases hprov n hn with hacc | ⟨g, m, d, b, hg, hmeta, hd, hb, hname⟩
        · exact Or.inl hacc
        · exact Or.inr ⟨g, m, d, b, by simp [hg], hmeta, hd, hb, hname⟩
    | some m =>
      obtain ⟨d, hd⟩ := hdec f (by simp)
      cases hemb : embed m d with
      | error e =>
        obtain ⟨zip, hrun, hpers, hmem, hprov⟩ := ih hdecr acc
        refine ⟨zip, ?_, hpers, ?_, ?_⟩
        · rw [show exportLoop decode embed (f :: rest) acc =
              exportLoop decode embed rest acc from by
            simp [exportLoop, hm, hd, hemb]]
          exact hrun
        · intro g hg m' hgm hex
          rcases List.mem_cons.1 hg with rfl | hg
          · rw [hm] at hgm
            injection hgm with hm'
            subst hm'
            obtain ⟨d', b, hd', hb⟩ := hex
            rw [hd] at hd'
            injection hd' with hdd
            subst hdd
            rw [hemb] at hb
            cases hb
          · exact hmem g hg m' hgm hex
        · intro n hn
          rcases hprov n hn with hacc | ⟨g, m', d', b, hg, hmeta, hd', hb, hname⟩
          · exact Or.inl hacc
          · exact Or.inr ⟨g, m', d', b, by simp [hg], hmeta, hd', hb, hname⟩
      | ok b =>
        obtain ⟨zip, hrun, hpers, hmem, hprov⟩ :=
          ih hdecr (zipFile acc (m.filename ++ ".jpg") b)
        refine ⟨zip, ?_, ?_, ?_, ?_⟩
        · rw [show exportLoop decode embed (f :: rest) acc =
              exportLoop decode embed rest
                (zipFile acc (m.filename ++ ".jpg") b) from by
            simp [exportLoop, hm, hd, hemb]]
          exact hrun
        · intro n hn
          exact hpers n (mem_zipFile_of_mem _ b hn)
        · intro g hg m' hgm hex
          rcases List.mem_cons.1 hg with rfl | hg
          · rw [hm] at hgm
            injection hgm with hm'
            subst hm'
            exact hpers _ (mem_zipFile_self acc _ b)
          · exact hmem g hg m' hgm hex
        · intro n hn
          rcases hprov n hn with hacc | ⟨g, m', d', b', hg, hmeta, hd', hb, hname⟩
          · rcases mem_of_mem_zipFile hacc with hacc | rfl
            · exact Or.inl hacc
            · exact Or.inr ⟨f, m, d, b, by simp, hm, hd, hemb, rfl⟩
          · exact Or.inr ⟨g, m', d', b', by simp [hg], hmeta, hd', hb, hname⟩

/-- C2 as amended: when the decode/re-encode stage succeeds on every
success-status item, the export never aborts — an embed failure is caught,
that item is skipped, and the pipeline proceeds — and the produced archive
contains the entry of every item whose embed succeeded, while every
archive entry name stems from some item whose embed succeeded (an
embed-failed item contributes no entry).  A decode failure, by contrast,
aborts the whole export (see the counterexample). -/
theorem processAndDownloadAll_spec
    (decode : ImageFile → Except String String)
    (embed : ImageMetadata → String → Except String String)
    (files : List ImageFile)
    (hdec : ∀ f ∈ files, f.status = AppStatus.SUCCESS → ∃ d, decode f = .ok d) :
    ∃ zip, processAndDownloadAll decode embed files = .ok zip ∧
      (∀ f ∈ files, ∀ m : ImageMetadata, f.status = AppStatus.SUCCESS →
        f.metadata = some m →
        (∃ d b, decode f = .ok d ∧ embed m d = .ok b) →
          (m.filename ++ ".jpg") ∈ zip.map Prod.fst) ∧
      (∀ n ∈ zip.map Prod.fst,
        ∃ f m d b, f ∈ files ∧ f.status = AppStatus.SUCCESS ∧
          f.metadata = some m ∧ decode f = .ok d ∧ embed m d = .ok b ∧
          n = m.filename ++ ".jpg") := by
  have hdecf : ∀ f ∈ files.filter
      (fun f => decide (f.status = AppStatus.SUCCESS) && f.metadata.isSome),
      ∃ d, decode f = .ok d := by
    intro f hf
    rw [List.mem_filter, Bool.and_eq_true, decide_eq_true_eq] at hf
    exact hdec f hf.1 hf.2.1
  obtain ⟨zip, hrun, _, hmem, hprov⟩ := exportLoop_ok decode embed _ hdecf []
  refine ⟨zip, hrun, ?_, ?_⟩
  · intro f hf m hst hmeta hex
    refine hmem f ?_ m hmeta hex
    rw [List.mem_filter, Bool.and_eq_true, decide_eq_true_eq]
    exact ⟨hf, hst, by rw [hmeta]; rfl⟩
  · intro n hn
    rcases hprov n hn with hacc | ⟨f, m, d, b, hf, hmeta, hd, hb, hname⟩
    · simp at hacc
    · rw [List.mem_filter, Bool.and_eq_true, decide_eq_true_eq] at hf
      exact ⟨f, m, d, b, hf.1, hf.2.1, hmeta, hd, hb, hname⟩

/-- Decode stage that always succeeds (C2 witness and C9). -/
def decodeAlwaysOk : ImageFile → Except String String := fun f => .ok f.file

/-- Embed stage that fails exactly on the filename "two" (C2 witness). -/
def embedFailSecond : ImageMetadata → String → Except String String :=
  fun m d => if m.filename = "two" then .error "piexif failed" else .ok d

/-- Witness for C2's amended theorem at a concrete input: with a total
decode stage and an embed stage failing on the middle item, the export
still returns an archive. -/
theorem processAndDownloadAll_spec_witness :
    ∃ zip, processAndDownloadAll decodeAlwaysOk embedFailSecond
        exportPairFiles = .ok zip ∧
      (∀ f ∈ exportPairFiles, ∀ m : ImageMetadata,
        f.status = AppStatus.SUCCESS → f.metadata = some m →
        (∃ d b, decodeAlwaysOk f = .ok d ∧ embedFailSecond m d = .ok b) →
          (m.filename ++ ".jpg") ∈ zip.map Prod.fst) ∧
      (∀ n ∈ zip.map Prod.fst,
        ∃ f m d b, f ∈ exportPairFiles ∧ f.status = AppStatus.SUCCESS ∧
          f.metadata = some m ∧ decodeAlwaysOk f = .ok d ∧
          embedFailSecond m d = .ok b ∧ n = m.filename ++ ".jpg") :=
  processAndDownloadAll_spec decodeAlwaysOk embedFailSecond exportPairFiles
    (fun f _ _ => ⟨f.file, rfl⟩)

theorem exportLoop_names_nodup (decode : ImageFile → Except String String)
    (embed : ImageMetadata → String → Except String String) :
    ∀ (todo : List ImageFile) (acc zip : List (String × String)),
      (acc.map Prod.fst).Nodup →
      exportLoop decode embed todo acc = .ok zip →
      (zip.map Prod.fst).Nodup := by
  intro todo
  induction todo with
  | nil =>
    intro acc zip hacc hrun
    injection hrun with h
    exact h ▸ hacc
  | cons f rest ih =>
    intro acc zip hacc hrun
    cases hm : f.metadata with
    | none =>
      simp only [exportLoop, hm] at hrun
      exact ih acc zip hacc hrun
    | some m =>
      cases hd : decode f with
      | error e => simp [exportLoop, hm, hd] at hrun
      | ok d =>
        cases hemb : embed m d with
        | error e =>
          simp only [exportLoop, hm, hd, hemb] at hrun
          exact ih acc zip hacc hrun
        | ok b =>
          simp only [exportLoop, hm, hd, hemb] at hrun
          exact ih _ zip (zipFile_nodup hacc) hrun

/-- Two success items whose metadata carries the same filename "art"
but different source bytes (C9). -/
def sharedNameFiles : List ImageFile :=
  [ { id := "1", file := "p1", previewUrl := "v1",
      metadata := some ⟨"art", "t1", "d1", ["a"]⟩,
      status := .SUCCESS, error := none },
    { id := "2", file := "p2", previewUrl := "v2",
      metadata := some ⟨"art", "t2", "d2", ["b"]⟩,
      status := .SUCCESS, error := none } ]

/-- C9: archive entry names are always duplicate-free — adding under an
existing name replaces that entry — and concretely, exporting two
successfully embedded items that share the filename "art" yields a
one-entry archive holding the later item's bytes, strictly fewer entries
than embedded items. -/
theorem export_duplicate_filenames_collapse :
    (∀ (decode : ImageFile → Except String String)
        (embed : ImageMetadata → String → Except String String)
        (files : List ImageFile) (zip : List (String × String)),
      processAndDownloadAll decode embed files = .ok zip →
      (zip.map Prod.fst).Nodup) ∧
    processAndDownloadAll decodeAlwaysOk embedAlwaysOk sharedNameFiles =
      .ok [("art.jpg", "p2")] := by
  constructor
  · intro decode embed files zip hrun
    exact exportLoop_names_nodup decode embed _ [] zip List.nodup_nil hrun
  · rfl

/-- Witness for C9 at a concrete input: the archive produced from the two
same-named items has duplicate-free entry names. -/
theorem export_duplicate_filenames_collapse_witness :
    (([("art.jpg", "p2")] : List (String × String)).map Prod.fst).Nodup :=
  export_duplicate_filenames_collapse.1 decodeAlwaysOk embedAlwaysOk
    sharedNameFiles [("art.jpg", "p2")] (by rfl)

/-! ## Observable session states and the record invariant (C1)

The collection of item records changes at these observable points: upload
(`handleFileSelect`), start of an analysis (`status: LOADING, error: null`
— `metadata` is NOT cleared), completion of an analysis (success or
error), a metadata edit (`handleMetadataChange`), a delete
(`handleDeleteFile`), the bulk-tag operation, and reset (`handleReset`).
A completion event only ever fires for an item the matching start left in
LOADING (no UI operation can change a LOADING item's status, and a
completion for a deleted id updates nothing), which the finish
constructors carry as a guard. -/

/-- A freshly uploaded item record (`handleFileSelect`). -/
def mkImageFile (id file previewUrl : String) : ImageFile :=
  { id := id, file := file, previewUrl := previewUrl,
    metadata := none, status := .IDLE, error := none }

/-- One observable transition of the item collection. -/
inductive Step : List ImageFile → List ImageFile → Prop where
  | upload (files : List ImageFile) (specs : List (String × String × String)) :
      Step files (files ++ specs.map fun s => mkImageFile s.1 s.2.1 s.2.2)
  | startAnalysis (files : List ImageFile) (id : String) :
      Step files (updateImageFile files id fun f =>
        { f with status := .LOADING, error := none })
  | finishSuccess (files : List ImageFile) (id : String) (m : ImageMetadata)
      (h : ∀ f ∈ files, f.id = id → f.status = AppStatus.LOADING) :
      Step files (updateImageFile files id fun f =>
        { f with status := .SUCCESS, metadata := some m })
  | finishError (files : List ImageFile) (id : String) (msg : String)
      (h : ∀ f ∈ files, f.id = id → f.status = AppStatus.LOADING) :
      Step files (updateImageFile files id fun f =>
        { f with status := .ERROR, error := some msg })
  | editMetadata (files : List ImageFile) (id : String) (m : ImageMetadata) :
      Step files (updateImageFile files id fun f => { f with metadata := some m })
  | deleteFile (files : List ImageFile) (id : String) :
      Step files (files.filter fun f => decide (f.id ≠ id))
  | applyTags (files : List ImageFile) (input : String) :
      Step files (handleApplyCustomTags input files)
  | reset (files : List ImageFile) :
      Step files []

/-- The invariant exactly as the claim states it: metadata is non-null
iff the status is success, and the error is non-null iff the status is
error, for every item. -/
def claimInvariant (files : List ImageFile) : Prop :=
  ∀ f ∈ files, (f.metadata ≠ none ↔ f.status = AppStatus.SUCCESS) ∧
    (f.error ≠ none ↔ f.status = AppStatus.ERROR)

/-- The half of the invariant the code actually maintains: the error
biconditional in full, but only the forward direction for metadata. -/
def amendedInvariant (files : List ImageFile) : Prop :=
  ∀ f ∈ files, (f.error ≠ none ↔ f.status = AppStatus.ERROR) ∧
    (f.status = AppStatus.SUCCESS → f.metadata ≠ none)

/-- State after uploading one image. -/
def c1s1 : List ImageFile := [mkImageFile "1" "b1" "u1"]

/-- State after the upload's analysis starts. -/
def c1s2 : List ImageFile :=
  updateImageFile c1s1 "1" fun f => { f with status := .LOADING, error := none }

/-- State after the analysis succeeds. -/
def c1s3 : List ImageFile :=
  updateImageFile c1s2 "1" fun f =>
    { f with status := .SUCCESS, metadata := some ⟨"f", "t", "d", ["x"]⟩ }

/-- State after the user clicks Regenerate on the successful item: the
status returns to LOADING but the stale metadata is not cleared. -/
def c1s4 : List ImageFile :=
  updateImageFile c1s3 "1" fun f => { f with status := .LOADING, error := none }

/-- C1 counterexample: a reachable observable point — upload, analyze to
success, then regenerate — where the item has non-null metadata while its
status is LOADING, violating the claimed biconditional
`metadata ≠ null ⟺ status = success`. -/
theorem claimInvariant_violated :
    Relation.ReflTransGen Step [] c1s4 ∧
    c1s4 = [{ id := "1", file := "b1", previewUrl := "u1",
              metadata := some ⟨"f", "t", "d", ["x"]⟩,
              status := .LOADING, error := none }] ∧
    ¬ claimInvariant c1s4 := by
  refine ⟨?_, by decide, by unfold claimInvariant; decide⟩
  have h1 : Step ([] : List ImageFile) c1s1 :=
    Step.upload [] [("1", "b1", "u1")]
  have h2 : Step c1s1 c1s2 := Step.startAnalysis c1s1 "1"
  have h3 : Step c1s2 c1s3 :=
    Step.finishSuccess c1s2 "1" ⟨"f", "t", "d", ["x"]⟩ (by decide)
  have h4 : Step c1s3 c1s4 := Step.startAnalysis c1s3 "1"
  exact ((((Relation.ReflTransGen.refl.tail h1).tail h2).tail h3).tail h4)

/-- C1 as amended: at every observable point the error field is non-null
exactly when the status is error, and a success-status item always has
non-null metadata; the reverse metadata direction fails (see the
counterexample) because starting a re-analysis, and a re-analysis that
fails, keep the stale metadata of a previously successful item. -/
theorem amendedInvariant_preserved (s t : List ImageFile)
    (hs : amendedInvariant s) (hstep : Step s t) : amendedInvariant t := by
  cases hstep with
  | upload specs =>
    intro f hf
    rcases List.mem_append.1 hf with hf | hf
    · exact hs f hf
    · obtain ⟨spec, _, rfl⟩ := List.mem_map.1 hf
      simp [mkImageFile]
  | startAnalysis i =>
    intro f hf
    obtain ⟨g, hg, rfl⟩ := List.mem_map.1 hf
    by_cases hgid : g.id = i
    · rw [if_pos hgid]
      simp
    · rw [if_neg hgid]
      exact hs g hg
  | finishSuccess i m h =>
    intro f hf
    obtain ⟨g, hg, rfl⟩ := List.mem_map.1 hf
    by_cases hgid : g.id = i
    · rw [if_pos hgid]
      have hld : g.status = AppStatus.LOADING := h g hg hgid
      have herr : g.error = none := by
        by_cases he : g.error = none
        · exact he
        · have hee := ((hs g hg).1).1 he
          rw [hld] at hee
          cases hee
      constructor
      · show g.error ≠ none ↔ AppStatus.SUCCESS = AppStatus.ERROR
        rw [herr]
        simp
      · intro _
        simp
    · rw [if_neg hgid]
      exact hs g hg
  | finishError i msg h =>
    intro f hf
    obtain ⟨g, hg, rfl⟩ := List.mem_map.1 hf
    by_cases hgid : g.id = i
    · rw [if_pos hgid]
      constructor
      · simp
      · intro hcontra
        cases hcontra
    · rw [if_neg hgid]
      exact hs g hg
  | editMetadata i m =>
    intro f hf
    obtain ⟨g, hg, rfl⟩ := List.mem_map.1 hf
    by_cases hgid : g.id = i
    · rw [if_pos hgid]
      exact ⟨(hs g hg).1, fun _ => by simp⟩
    · rw [if_neg hgid]
      exact hs g hg
  | deleteFile i =>
    intro f hf
    exact hs f (List.mem_of_mem_filter hf)
  | applyTags input =>
    intro f hf
    have hf' : f ∈ (if trimChars input.data = [] then s
        else if parseTags input = [] then s
        else s.map (bulkTagItem (parseTags input))) := hf
    by_cases ht : trimChars input.data = []
    · rw [if_pos ht] at hf'
      exact hs f hf'
    · rw [if_neg ht] at hf'
      by_cases hp : parseTags input = []
      · rw [if_pos hp] at hf'
        exact hs f hf'
      · rw [if_neg hp] at hf'
        obtain ⟨g, hg, rfl⟩ := List.mem_map.1 hf'
        rcases g with ⟨i, fl, u, meta, status, err⟩
        cases status <;> cases meta <;>
          first
          | exact hs _ hg
          | exact ⟨(hs _ hg).1, fun _ => by simp [bulkTagItem]⟩
  | reset =>
    intro f hf
    cases hf

/-- Witness for C1's amended theorem at a concrete input: the amended
invariant holds of the empty session and is preserved by uploading one
image. -/
theorem amendedInvariant_preserved_witness : amendedInvariant c1s1 :=
  amendedInvariant_preserved [] c1s1 (by unfold amendedInvariant; decide)
    (Step.upload [] [("1", "b1", "u1")])

end GameArt
